import Mathlib

/-!
Verification of the NYC 311 ingestion core (`src/nyc311/ingestion/api_client.py`):
the paginated fetch loop (`fetch_all`), the change-capture deduplication in
`fetch_changes_since`, the quality validator (`validate_records` and
`DataQualityReport.is_valid`), and the incremental-load watermark logic
(`IncrementalLoader`).  Each Python function is embedded as an executable Lean
definition; network and file I/O are abstracted as explicit inputs (the finite
upstream dataset for pagination, an oracle from issued query strategies to
returned records for the loader, and an inductive description of the state
file's condition).
-/

namespace NYC311

/-- One service-request record as returned by the API: a JSON object whose
relevant fields are either absent or a string.  Mirrors the record dictionaries
consumed by `api_client.py` (fields are accessed with `record.get(...)`). -/
structure Record where
  unique_key : Option String
  created_date : Option String
  resolution_action_updated_date : Option String
  closed_date : Option String
  borough : Option String
  latitude : Option String
  longitude : Option String
  complaint_type : Option String
deriving DecidableEq

/-- Python truthiness of an optional string field: `None` and `""` are falsy,
every other string is truthy.  Models the `if key:` / `if r.get(...)` checks. -/
def truthy : Option String → Bool
  | none => false
  | some s => !(s == "")

/-- Lexicographic comparison of two character lists by code point; models
Python's string `<` (and, flipped, `>`) used on ISO-8601 timestamp strings. -/
def strLtL : List Char → List Char → Bool
  | [], [] => false
  | [], _ :: _ => true
  | _ :: _, [] => false
  | a :: as, b :: bs =>
    if a.toNat < b.toNat then true
    else if b.toNat < a.toNat then false
    else strLtL as bs

/-- Python string `<` on strings. -/
def strLt (a b : String) : Bool := strLtL a.data b.data

/-- Python string `<=` on strings (`a <= b` iff not `b < a`). -/
def strLe (a b : String) : Bool := !strLt b a

/-- Python `max(a, b)` for strings: keeps `a` unless `b` is strictly greater. -/
def maxS (a b : String) : String := if strLt a b then b else a

/-- Python `min(a, b)` for strings: keeps `a` unless `b` is strictly smaller. -/
def minS (a b : String) : String := if strLt b a then b else a

/-- `record.get("resolution_action_updated_date", "")`: the update timestamp
with an absent value read as the empty string. -/
def updatedOf (r : Record) : String := r.resolution_action_updated_date.getD ""

/-- The `DataQualityReport` dataclass. -/
structure DataQualityReport where
  total_records : Nat
  null_unique_key : Nat
  null_created_date : Nat
  null_borough : Nat
  invalid_coordinates : Nat
  duplicate_keys : Nat
  date_range : Option String × Option String
deriving DecidableEq

/-- `DataQualityReport.is_valid`: empty batches are valid; otherwise the null
rate over `unique_key`/`created_date` and the duplicate rate must each be
strictly below the 0.05 threshold. -/
def DataQualityReport.is_valid (rep : DataQualityReport) : Bool :=
  if rep.total_records = 0 then true
  else
    decide (((rep.null_unique_key : ℚ) + rep.null_created_date) / rep.total_records < 0.05)
      && decide ((rep.duplicate_keys : ℚ) / rep.total_records < 0.05)

/-- Numeric value of a list of decimal digit characters. -/
def decimalVal (cs : List Char) : Nat := cs.foldl (fun a c => a * 10 + (c.toNat - 48)) 0

/-- Python `float(s)` on the plain decimal notation used by the API's
latitude/longitude strings (optional sign, digits, optional fractional part);
any other shape fails, modelling the `ValueError` branch. -/
def floatOfString? (s : String) : Option ℚ :=
  let signed : ℚ × List Char :=
    match s.data with
    | '-' :: rest => (-1, rest)
    | '+' :: rest => (1, rest)
    | cs => (1, cs)
  match List.splitOn '.' signed.2 with
  | [intPart] =>
    if !intPart.isEmpty && intPart.all Char.isDigit then
      some (signed.1 * decimalVal intPart)
    else none
  | [intPart, fracPart] =>
    if (!intPart.isEmpty || !fracPart.isEmpty)
        && intPart.all Char.isDigit && fracPart.all Char.isDigit then
      some (signed.1 * ((decimalVal intPart : ℚ)
        + (decimalVal fracPart : ℚ) / (10 : ℚ) ^ fracPart.length))
    else none
  | _ => none

/-- The coordinate check inside `validate_records`: a record contributes to
`invalid_coordinates` iff both coordinate fields are truthy and they either
fail to parse or fall outside the NYC bounding box
`[40.4, 41.0] x [-74.3, -73.7]`. -/
def coordInvalid (r : Record) : Bool :=
  if truthy r.latitude && truthy r.longitude then
    match floatOfString? (r.latitude.getD ""), floatOfString? (r.longitude.getD "") with
    | some latF, some lonF =>
        !(decide ((40.4 : ℚ) ≤ latF) && decide (latF ≤ (41.0 : ℚ))
          && decide ((-74.3 : ℚ) ≤ lonF) && decide (lonF ≤ (-73.7 : ℚ)))
    | _, _ => true
  else false

/-- `unique_keys = [r.get("unique_key") for r in records if r.get("unique_key")]`. -/
def uniqueKeys (records : List Record) : List String :=
  records.filterMap fun r => if truthy r.unique_key then some (r.unique_key.getD "") else none

/-- `dates = [r.get("created_date") for r in records if r.get("created_date")]`. -/
def createdDates (records : List Record) : List String :=
  records.filterMap fun r => if truthy r.created_date then some (r.created_date.getD "") else none

/-- `NYC311APIClient.validate_records`: the one-pass quality report over a
batch.  `duplicate_keys` is `len(unique_keys) - len(set(unique_keys))` and the
date range is `(min(dates), max(dates))` when any `created_date` is present. -/
def validate_records (records : List Record) : DataQualityReport :=
  if records.isEmpty then
    { total_records := 0, null_unique_key := 0, null_created_date := 0, null_borough := 0,
      invalid_coordinates := 0, duplicate_keys := 0, date_range := (none, none) }
  else
    { total_records := records.length
      null_unique_key := records.countP fun r => !truthy r.unique_key
      null_created_date := records.countP fun r => !truthy r.created_date
      null_borough := records.countP fun r => !truthy r.borough
      invalid_coordinates := records.countP coordInvalid
      duplicate_keys := (uniqueKeys records).length - (uniqueKeys records).dedup.length
      date_range :=
        match createdDates records with
        | [] => (none, none)
        | d :: ds => (some (ds.foldl minS d), some (ds.foldl maxS d)) }

/-- One update of the insertion-ordered `seen` dictionary in
`fetch_changes_since`: if `k` is absent the pair is appended; otherwise the
stored record is replaced exactly when the incoming record's
`resolution_action_updated_date` is strictly greater. -/
def updSeen : List (String × Record) → String → Record → List (String × Record)
  | [], k, r => [(k, r)]
  | (k2, r2) :: rest, k, r =>
    if k2 = k then
      (if strLt (updatedOf r2) (updatedOf r) then (k2, r) else (k2, r2)) :: rest
    else
      (k2, r2) :: updSeen rest k r

/-- Processing of one fetched record by the deduplication loop: records whose
`unique_key` is falsy are skipped, the rest update `seen` under their key. -/
def dedupeStep (seen : List (String × Record)) (r : Record) : List (String × Record) :=
  match r.unique_key with
  | none => seen
  | some k => if k = "" then seen else updSeen seen k r

/-- The deduplication pass of `NYC311APIClient.fetch_changes_since`:
`list(seen.values())` after folding every fetched record into `seen`. -/
def dedupe (records : List Record) : List Record :=
  (records.foldl dedupeStep []).map Prod.snd

/-- `NYC311APIClient._fetch_page` against a fixed finite upstream dataset: the
API answers a request at `offset` with limit `pageSize` by the corresponding
slice of the dataset. -/
def fetchPage (upstream : List Record) (pageSize offset : Nat) : List Record :=
  (upstream.drop offset).take pageSize

/-- The `if max_records and total_fetched >= max_records:` guard of
`fetch_all`: `max_records` may be `None` (no limit) and, being an `int`, is
also falsy when it equals `0`. -/
def maxHit (maxRecords : Option Nat) (totalFetched : Nat) : Bool :=
  match maxRecords with
  | none => false
  | some m => !(m == 0) && decide (totalFetched ≥ m)

/-- The inner `for record in records:` loop of `fetch_all`: emits the page's
records one by one, incrementing `total_fetched`, and stops the whole fetch
(third component `true`) as soon as the `max_records` guard fires.  Returns
the emitted records, the updated total, and the early-stop flag. -/
def emitPage (maxRecords : Option Nat) : List Record → Nat → List Record × Nat × Bool
  | [], total => ([], total, false)
  | r :: rest, total =>
    if maxHit maxRecords (total + 1) then ([r], total + 1, true)
    else
      match emitPage maxRecords rest (total + 1) with
      | (es, t, s) => (r :: es, t, s)

/-- The `while True:` pagination loop of `NYC311APIClient.fetch_all`, run
against a fixed finite upstream: requests the page at `offset`, breaks on an
empty page, emits the page (possibly stopping early on `max_records`),
advances the offset by the page's record count, and breaks after a page
shorter than `pageSize`.  Returns the emitted records together with the list
of offsets at which page requests were issued. -/
def fetch_all (upstream : List Record) (pageSize : Nat) (maxRecords : Option Nat)
    (offset total : Nat) : List Record × List Nat :=
  if hpage : fetchPage upstream pageSize offset = [] then
    ([], [offset])
  else
    let et := emitPage maxRecords (fetchPage upstream pageSize offset) total
    if et.2.2 || decide ((fetchPage upstream pageSize offset).length < pageSize) then
      (et.1, [offset])
    else
      let rest := fetch_all upstream pageSize maxRecords
        (offset + (fetchPage upstream pageSize offset).length) et.2.1
      (et.1 ++ rest.1, offset :: rest.2)
termination_by upstream.length - offset
decreasing_by
  have h1 : 0 < (fetchPage upstream pageSize offset).length :=
    List.length_pos.mpr hpage
  have h2 : (fetchPage upstream pageSize offset).length ≤ upstream.length - offset := by
    simp only [fetchPage, List.length_take, List.length_drop]
    omega
  have h3 : offset < upstream.length := by
    by_contra hc
    push_neg at hc
    have : upstream.drop offset = [] := List.drop_eq_nil_of_le hc
    simp [fetchPage, this] at hpage
  omega

/-- The condition of the loader state file, abstracting the file system as
`_read_state` observes it: the file may be missing (`FileNotFoundError`), hold
text that is not valid JSON (`JSONDecodeError`), or parse to an object whose
optional `last_loaded_timestamp` entry is the given value. -/
inductive StateFile where
  | absent
  | corrupt
  | present (last_loaded_timestamp : Option String)
deriving DecidableEq

/-- `IncrementalLoader._read_state`: both error conditions are caught and
yield `None`; otherwise `state.get("last_loaded_timestamp")` is returned. -/
def readState : StateFile → Option String
  | StateFile.absent => none
  | StateFile.corrupt => none
  | StateFile.present w => w

/-- The query strategy `load_incremental` selects: the initial lookback query
(`fetch_recent`), the new-records-only query (`fetch_since`), or the SCD2
changed-records query (`fetch_changes_since`). -/
inductive Strategy where
  | recent (days : Nat)
  | since (ts : String)
  | changedSince (ts : String)
deriving DecidableEq

/-- The strategy selection of `IncrementalLoader.load_incremental`: a truthy
stored watermark selects the incremental query (changed-records when
`scd2_mode`, new-records otherwise); a missing or falsy watermark selects the
initial lookback query. -/
def chooseStrategy (watermark : Option String) (scd2 : Bool) (days : Nat) : Strategy :=
  match watermark with
  | some ts => if ts = "" then Strategy.recent days else
      if scd2 then Strategy.changedSince ts else Strategy.since ts
  | none => Strategy.recent days

/-- `IncrementalLoader.load_incremental` with the network abstracted by an
oracle mapping the issued query strategy to the records the API returns:
reads the watermark, selects a strategy, fetches (the changed-records path
deduplicates, as `fetch_changes_since` does), validates, and overwrites the
state file with the report's max `created_date` when the load is non-empty and
that maximum is truthy.  Returns the new state-file condition together with
the records and the report. -/
def load_incremental (oracle : Strategy → List Record) (scd2 : Bool) (days : Nat)
    (sf : StateFile) : StateFile × List Record × DataQualityReport :=
  let strat := chooseStrategy (readState sf) scd2 days
  let records :=
    match strat with
    | Strategy.changedSince _ => dedupe (oracle strat)
    | _ => oracle strat
  let report := validate_records records
  if !records.isEmpty && truthy report.date_range.2 then
    (StateFile.present (some (report.date_range.2.getD "")), records, report)
  else
    (sf, records, report)

/-! ### Order facts about the embedded string comparison -/

lemma strLtL_irrefl : ∀ l : List Char, strLtL l l = false := by
  intro l
  induction l with
  | nil => rfl
  | cons a as ih => simp [strLtL, ih]

lemma strLtL_asymm : ∀ l1 l2 : List Char, strLtL l1 l2 = true → strLtL l2 l1 = false := by
  intro l1
  induction l1 with
  | nil =>
    intro l2 h
    cases l2 with
    | nil => simpa [strLtL] using h
    | cons b bs => simp [strLtL]
  | cons a as ih =>
    intro l2 h
    cases l2 with
    | nil => simp [strLtL] at h
    | cons b bs =>
      simp only [strLtL] at h ⊢
      by_cases h1 : a.toNat < b.toNat
      · have h2 : ¬ b.toNat < a.toNat := by omega
        simp [h1, h2]
      · by_cases h2 : b.toNat < a.toNat
        · simp [h1, h2] at h
        · have htl : strLtL as bs = true := by simpa [h1, h2] using h
          simp [h1, h2, ih bs htl]

lemma strLtL_linear : ∀ c a b : List Char,
    strLtL c a = true → strLtL c b = true ∨ strLtL b a = true := by
  intro c
  induction c with
  | nil =>
    intro a b h
    cases a with
    | nil => simp [strLtL] at h
    | cons x xs =>
      cases b with
      | nil => right; simp [strLtL]
      | cons y ys => left; simp [strLtL]
  | cons z zs ih =>
    intro a b h
    cases a with
    | nil => simp [strLtL] at h
    | cons x xs =>
      cases b with
      | nil => right; simp [strLtL]
      | cons y ys =>
        by_cases hzy : z.toNat < y.toNat
        · left; simp [strLtL, hzy]
        · by_cases hyx : y.toNat < x.toNat
          · right; simp [strLtL, hyx]
          · simp only [strLtL] at h
            by_cases hzx : z.toNat < x.toNat
            · omega
            · by_cases hxz : x.toNat < z.toNat
              · simp [hzx, hxz] at h
              · have htl : strLtL zs xs = true := by simpa [hzx, hxz] using h
                have hzy' : ¬ z.toNat < y.toNat := hzy
                have heq : y.toNat = z.toNat := by omega
                rcases ih xs ys htl with hl | hr
                · left
                  simp only [strLtL]
                  have : ¬ y.toNat < z.toNat := by omega
                  simp [hzy', this, hl]
                · right
                  simp only [strLtL]
                  have hxy : ¬ x.toNat < y.toNat := by omega
                  simp [hyx, hxy, hr]

lemma strLt_asymm {a b : String} (h : strLt a b = true) : strLt b a = false :=
  strLtL_asymm a.data b.data h

lemma strLe_refl (a : String) : strLe a a = true := by
  simp [strLe, strLt, strLtL_irrefl]

lemma strLe_of_strLt {a b : String} (h : strLt a b = true) : strLe a b = true := by
  simp [strLe, strLt_asymm h]

lemma strLe_trans {a b c : String} (hab : strLe a b = true) (hbc : strLe b c = true) :
    strLe a c = true := by
  simp only [strLe, Bool.not_eq_true'] at hab hbc ⊢
  by_contra hc
  rw [Bool.not_eq_false] at hc
  rcases strLtL_linear c.data a.data b.data hc with h | h
  · exact absurd h (by simp [strLt] at hbc; simp [hbc])
  · exact absurd h (by simp [strLt] at hab; simp [hab])

lemma strLe_maxS_left (a b : String) : strLe a (maxS a b) = true := by
  unfold maxS
  by_cases h : strLt a b = true
  · simp [h, strLe_of_strLt h]
  · simp [Bool.not_eq_true] at h
    simp [h, strLe_refl]

lemma strLe_maxS_right (a b : String) : strLe b (maxS a b) = true := by
  unfold maxS
  by_cases h : strLt a b = true
  · simp [h, strLe_refl]
  · simp [Bool.not_eq_true] at h
    simp [h, strLe]

lemma strLe_foldl_maxS (w : String) :
    ∀ (ds : List String) (d0 : String), strLe w d0 = true →
      strLe w (ds.foldl maxS d0) = true := by
  intro ds
  induction ds with
  | nil => intro d0 h; simpa using h
  | cons d ds ih =>
    intro d0 h
    exact ih (maxS d0 d) (strLe_trans h (strLe_maxS_left d0 d))

/-! ### Behaviour of the deduplication dictionary -/

lemma updSeen_keys_of_mem (k : String) (r : Record) :
    ∀ seen : List (String × Record), k ∈ seen.map Prod.fst →
      (updSeen seen k r).map Prod.fst = seen.map Prod.fst := by
  intro seen
  induction seen with
  | nil => intro h; simp at h
  | cons p rest ih =>
    intro h
    obtain ⟨k2, r2⟩ := p
    by_cases hk : k2 = k
    · subst hk
      simp only [updSeen, if_pos rfl]
      by_cases hlt : strLt (updatedOf r2) (updatedOf r) = true
      · simp [hlt]
      · simp [hlt]
    · have hmem : k ∈ rest.map Prod.fst := by
        simp only [List.map_cons, List.mem_cons] at h
        rcases h with h | h
        · exact absurd h.symm hk
        · exact h
      simp [updSeen, hk, ih hmem]

lemma updSeen_of_not_mem (k : String) (r : Record) :
    ∀ seen : List (String × Record), k ∉ seen.map Prod.fst →
      updSeen seen k r = seen ++ [(k, r)] := by
  intro seen
  induction seen with
  | nil => intro _; rfl
  | cons p rest ih =>
    intro h
    obtain ⟨k2, r2⟩ := p
    have h1 : ¬ k2 = k := by
      intro e
      exact h (by simp [e])
    have h2 : k ∉ rest.map Prod.fst := by
      intro hm
      exact h (by simp [hm])
    simp [updSeen, h1, ih h2]

lemma mem_updSeen (k : String) (r : Record) :
    ∀ seen : List (String × Record), ∀ p ∈ updSeen seen k r, p ∈ seen ∨ p = (k, r) := by
  intro seen
  induction seen with
  | nil =>
    intro p hp
    simp [updSeen] at hp
    simp [hp]
  | cons q rest ih =>
    intro p hp
    obtain ⟨k2, r2⟩ := q
    by_cases hk : k2 = k
    · simp only [updSeen, if_pos hk] at hp
      rcases List.mem_cons.mp hp with h | h
      · by_cases hlt : strLt (updatedOf r2) (updatedOf r) = true
        · right; simp [hlt] at h; simp [h, hk]
        · left; rw [Bool.not_eq_true] at hlt; simp [hlt] at h; simp [h]
      · left; simp [h]
    · simp only [updSeen, if_neg hk] at hp
      rcases List.mem_cons.mp hp with h | h
      · left; simp [h]
      · rcases ih p h with h' | h'
        · left; simp [h']
        · right; exact h'

lemma updSeen_at_key (k : String) (r : Record) :
    ∀ seen : List (String × Record), (seen.map Prod.fst).Nodup →
      ∀ p ∈ updSeen seen k r, p.1 = k →
        strLe (updatedOf r) (updatedOf p.2) = true ∧
        (∀ q ∈ seen, q.1 = k → strLe (updatedOf q.2) (updatedOf p.2) = true) := by
  intro seen
  induction seen with
  | nil =>
    intro _ p hp hk
    simp [updSeen] at hp
    subst hp
    exact ⟨strLe_refl _, by simp⟩
  | cons q rest ih =>
    intro hnd p hp hk
    obtain ⟨k2, r2⟩ := q
    simp only [List.map_cons, List.nodup_cons] at hnd
    by_cases hk2 : k2 = k
    · simp only [updSeen, if_pos hk2] at hp
      rcases List.mem_cons.mp hp with h | h
      · constructor
        · by_cases hlt : strLt (updatedOf r2) (updatedOf r) = true
          · simp [hlt] at h; simp [h, strLe_refl]
          · rw [Bool.not_eq_true] at hlt
            simp [hlt] at h
            simp only [h]
            simpa [strLe] using hlt
        · intro q hq hqk
          rcases List.mem_cons.mp hq with h' | h'
          · by_cases hlt : strLt (updatedOf r2) (updatedOf r) = true
            · simp [hlt] at h; simp [h, h', strLe_of_strLt hlt]
            · rw [Bool.not_eq_true] at hlt
              simp [hlt] at h
              simp [h, h', strLe_refl]
          · exfalso
            apply hnd.1
            rw [hk2, ← hqk]
            exact List.mem_map_of_mem Prod.fst h'
      · exfalso
        have : p.1 ∈ rest.map Prod.fst := List.mem_map_of_mem Prod.fst h
        rw [hk, ← hk2] at this
        exact hnd.1 this
    · simp only [updSeen, if_neg hk2] at hp
      rcases List.mem_cons.mp hp with h | h
      · exfalso; rw [h] at hk; exact hk2 hk
      · have := ih hnd.2 p h hk
        refine ⟨this.1, ?_⟩
        intro q hq hqk
        rcases List.mem_cons.mp hq with h' | h'
        · exfalso; rw [h'] at hqk; exact hk2 hqk
        · exact this.2 q h' hqk

/-- Invariant carried by the `seen` dictionary of the deduplication loop after
processing the records of `processed`, in order. -/
structure SeenInv (seen : List (String × Record)) (processed : List Record) : Prop where
  nodup : (seen.map Prod.fst).Nodup
  entry_key : ∀ p ∈ seen, p.2.unique_key = some p.1
  entry_ne : ∀ p ∈ seen, p.1 ≠ ""
  entry_mem : ∀ p ∈ seen, p.2 ∈ processed
  dominates : ∀ p ∈ seen, ∀ r' ∈ processed, r'.unique_key = some p.1 →
    strLe (updatedOf r') (updatedOf p.2) = true
  complete : ∀ r' ∈ processed, truthy r'.unique_key = true →
    r'.unique_key.getD "" ∈ seen.map Prod.fst

lemma seenInv_nil : SeenInv [] [] := by
  constructor <;> simp

lemma seenInv_skip {seen : List (String × Record)} {processed : List Record}
    (h : SeenInv seen processed) {r : Record} (hr : truthy r.unique_key = false) :
    SeenInv seen (processed ++ [r]) := by
  constructor
  · exact h.nodup
  · exact h.entry_key
  · exact h.entry_ne
  · intro p hp; exact List.mem_append_left _ (h.entry_mem p hp)
  · intro p hp r' hr' hk
    rcases List.mem_append.mp hr' with h' | h'
    · exact h.dominates p hp r' h' hk
    · exfalso
      simp at h'
      subst h'
      rw [hk] at hr
      simp [truthy] at hr
      exact h.entry_ne p hp hr
  · intro r' hr' ht
    rcases List.mem_append.mp hr' with h' | h'
    · exact h.complete r' h' ht
    · exfalso
      simp at h'
      subst h'
      rw [ht] at hr
      simp at hr

lemma seenInv_step {seen : List (String × Record)} {processed : List Record}
    (h : SeenInv seen processed) (r : Record) :
    SeenInv (dedupeStep seen r) (processed ++ [r]) := by
  cases hk : r.unique_key with
  | none =>
    have : dedupeStep seen r = seen := by simp [dedupeStep, hk]
    rw [this]
    exact seenInv_skip h (by simp [truthy, hk])
  | some k =>
    by_cases hke : k = ""
    · have : dedupeStep seen r = seen := by simp [dedupeStep, hk, hke]
      rw [this]
      exact seenInv_skip h (by simp [truthy, hk, hke])
    · have hstep : dedupeStep seen r = updSeen seen k r := by simp [dedupeStep, hk, hke]
      rw [hstep]
      have hkeys : ∀ k', k' ∈ seen.map Prod.fst → k' ∈ (updSeen seen k r).map Prod.fst := by
        intro k' hk'
        by_cases hmem : k ∈ seen.map Prod.fst
        · rw [updSeen_keys_of_mem k r seen hmem]; exact hk'
        · rw [updSeen_of_not_mem k r seen hmem]; simp; left; simpa using hk'
      have hknew : k ∈ (updSeen seen k r).map Prod.fst := by
        by_cases hmem : k ∈ seen.map Prod.fst
        · rw [updSeen_keys_of_mem k r seen hmem]; exact hmem
        · rw [updSeen_of_not_mem k r seen hmem]; simp
      constructor
      · by_cases hmem : k ∈ seen.map Prod.fst
        · rw [updSeen_keys_of_mem k r seen hmem]; exact h.nodup
        · rw [updSeen_of_not_mem k r seen hmem]
          have hmap : (seen ++ [(k, r)]).map Prod.fst = seen.map Prod.fst ++ [k] := by simp
          rw [hmap]
          refine List.Nodup.append h.nodup (by simp) ?_
          intro a ha hak
          simp at hak
          exact hmem (hak ▸ ha)
      · intro p hp
        rcases mem_updSeen k r seen p hp with h' | h'
        · exact h.entry_key p h'
        · rw [h']; exact hk
      · intro p hp
        rcases mem_updSeen k r seen p hp with h' | h'
        · exact h.entry_ne p h'
        · rw [h']; exact hke
      · intro p hp
        rcases mem_updSeen k r seen p hp with h' | h'
        · exact List.mem_append_left _ (h.entry_mem p h')
        · rw [h']; simp
      · intro p hp r' hr' hrk
        by_cases hpk : p.1 = k
        · have hat := updSeen_at_key k r seen h.nodup p hp hpk
          rcases List.mem_append.mp hr' with h' | h'
          · have ht : truthy r'.unique_key = true := by
              rw [hrk, hpk]; simp [truthy, hke]
            have := h.complete r' h' ht
            rw [hrk, hpk] at this
            simp at this
            obtain ⟨q2, hq2⟩ := this
            have hq2m : (k, q2) ∈ seen := hq2
            have hdom := h.dominates (k, q2) hq2m r' h' (by rw [hrk, hpk])
            exact strLe_trans hdom (hat.2 (k, q2) hq2m rfl)
          · simp at h'
            subst h'
            exact hat.1
        · rcases mem_updSeen k r seen p hp with h'' | h''
          · rcases List.mem_append.mp hr' with h' | h'
            · exact h.dominates p h'' r' h' hrk
            · exfalso
              simp at h'
              subst h'
              rw [hk] at hrk
              exact hpk (by injection hrk with e; exact e.symm)
          · exfalso
            apply hpk
            rw [h'']
      · intro r' hr' ht
        rcases List.mem_append.mp hr' with h' | h'
        · exact hkeys _ (h.complete r' h' ht)
        · simp at h'
          subst h'
          rw [hk]
          simpa using hknew

lemma seenInv_foldl :
    ∀ (rs : List Record) (seen : List (String × Record)) (processed : List Record),
      SeenInv seen processed → SeenInv (rs.foldl dedupeStep seen) (processed ++ rs) := by
  intro rs
  induction rs with
  | nil => intro seen processed h; simpa using h
  | cons r rest ih =>
    intro seen processed h
    have := ih (dedupeStep seen r) (processed ++ [r]) (seenInv_step h r)
    simpa using this

lemma seenInv_dedupe (rs : List Record) : SeenInv (rs.foldl dedupeStep []) rs := by
  simpa using seenInv_foldl rs [] [] seenInv_nil

lemma countP_congr_mem {α : Type} {p q : α → Bool} :
    ∀ l : List α, (∀ a ∈ l, p a = q a) → l.countP p = l.countP q := by
  intro l
  induction l with
  | nil => intro _; rfl
  | cons a l ih =>
    intro h
    simp only [List.countP_cons, ih fun b hb => h b (by simp [hb]), h a (by simp)]

lemma dedupe_mem {rs : List Record} {r : Record} (h : r ∈ dedupe rs) :
    r ∈ rs ∧ ∃ k, r.unique_key = some k ∧ k ≠ "" := by
  have inv := seenInv_dedupe rs
  simp only [dedupe, List.mem_map] at h
  obtain ⟨p, hp, hpr⟩ := h
  subst hpr
  exact ⟨inv.entry_mem p hp, p.1, inv.entry_key p hp, inv.entry_ne p hp⟩

lemma dedupe_countP_le_one (rs : List Record) (k : String) :
    ((dedupe rs).countP fun r => r.unique_key == some k) ≤ 1 := by
  have inv := seenInv_dedupe rs
  rw [dedupe, List.countP_map]
  have h1 : ((rs.foldl dedupeStep []).countP
        ((fun r => r.unique_key == some k) ∘ Prod.snd))
      = (rs.foldl dedupeStep []).countP fun p => p.1 == k := by
    apply countP_congr_mem
    intro p hp
    simp only [Function.comp, inv.entry_key p hp]
    by_cases h : p.1 = k
    · simp [h]
    · simp [h]
  rw [h1]
  have h2 : ((rs.foldl dedupeStep []).countP fun p => p.1 == k)
      = ((rs.foldl dedupeStep []).map Prod.fst).countP fun a => a == k := by
    rw [List.countP_map]
    rfl
  rw [h2, ← List.count_eq_countP]
  exact List.nodup_iff_count_le_one.mp inv.nodup k

lemma dedupe_dominates {rs : List Record} {r : Record} {k : String}
    (hr : r ∈ dedupe rs) (hk : r.unique_key = some k) :
    ∀ r' ∈ rs, r'.unique_key = some k → strLe (updatedOf r') (updatedOf r) = true := by
  have inv := seenInv_dedupe rs
  simp only [dedupe, List.mem_map] at hr
  obtain ⟨p, hp, hpr⟩ := hr
  subst hpr
  have hk1 : p.1 = k := by
    have := inv.entry_key p hp
    rw [this] at hk
    injection hk
  intro r' hr' hk'
  exact inv.dominates p hp r' hr' (hk1 ▸ hk')

lemma foldl_dedupeStep_fresh :
    ∀ (rs : List Record) (seen : List (String × Record)),
      (∀ r ∈ rs, ∃ k, r.unique_key = some k ∧ k ≠ "") →
      (∀ r ∈ rs, r.unique_key.getD "" ∉ seen.map Prod.fst) →
      (rs.map fun r => r.unique_key.getD "").Nodup →
      rs.foldl dedupeStep seen = seen ++ rs.map fun r => (r.unique_key.getD "", r) := by
  intro rs
  induction rs with
  | nil => intro seen _ _ _; simp
  | cons r rest ih =>
    intro seen hkeys hfresh hnd
    obtain ⟨k, hk, hke⟩ := hkeys r (by simp)
    have hstep : dedupeStep seen r = seen ++ [(k, r)] := by
      simp only [dedupeStep, hk]
      rw [if_neg hke]
      apply updSeen_of_not_mem
      have hf := hfresh r (by simp)
      rw [hk] at hf
      simpa using hf
    simp only [List.foldl_cons, hstep]
    have hrest : rest.foldl dedupeStep (seen ++ [(k, r)])
        = (seen ++ [(k, r)]) ++ rest.map fun r => (r.unique_key.getD "", r) := by
      apply ih
      · intro r' hr'; exact hkeys r' (by simp [hr'])
      · intro r' hr'
        have h1 : r'.unique_key.getD "" ∉ seen.map Prod.fst :=
          hfresh r' (by simp [hr'])
        have h2 : r'.unique_key.getD "" ≠ k := by
          simp only [List.map_cons, List.nodup_cons] at hnd
          intro e
          apply hnd.1
          rw [hk]
          simp only [Option.getD_some]
          rw [← e]
          exact List.mem_map_of_mem _ hr'
        simp [h1, h2]
      · simp only [List.map_cons, List.nodup_cons] at hnd
        exact hnd.2
    rw [hrest]
    simp [hk]

lemma dedupe_keys_eq (rs : List Record) :
    ((dedupe rs).map fun r => r.unique_key.getD "")
      = (rs.foldl dedupeStep []).map Prod.fst := by
  have inv := seenInv_dedupe rs
  rw [dedupe, List.map_map]
  apply List.map_congr_left
  intro p hp
  simp only [Function.comp, inv.entry_key p hp, Option.getD_some]

/-- C6: applying the deduplication pass of fetch_changes_since to its own
output is the identity: every surviving record has a truthy unique_key, and
the surviving keys are pairwise distinct, so no further collapsing occurs. -/
theorem dedupe_idem (records : List Record) : dedupe (dedupe records) = dedupe records := by
  have hfixed := foldl_dedupeStep_fresh (dedupe records) []
    (fun r hr => (dedupe_mem hr).2)
    (by intro r _; simp)
    (by rw [dedupe_keys_eq]; exact (seenInv_dedupe records).nodup)
  rw [dedupe, hfixed]
  simp only [List.nil_append, List.map_map]
  have hid : ∀ l : List Record,
      (l.map (Prod.snd ∘ fun r => (r.unique_key.getD "", r))) = l := by
    intro l
    induction l with
    | nil => rfl
    | cons a l ih => simp only [List.map_cons, ih, Function.comp]
  exact hid _

/-- C2: for every input list, the deduplication in fetch_changes_since keeps
at most one record per unique_key, and the kept record's
resolution_action_updated_date (absent read as the empty string) is
lexicographically greatest among all input records sharing that key. -/
theorem dedupe_keeps_latest_update (records : List Record) (k : String) :
    ((dedupe records).countP fun r => r.unique_key == some k) ≤ 1 ∧
    ∀ r ∈ dedupe records, r.unique_key = some k →
      ∀ r' ∈ records, r'.unique_key = some k →
        strLe (updatedOf r') (updatedOf r) = true := by
  refine ⟨dedupe_countP_le_one records k, ?_⟩
  intro r hr hk r' hr' hk'
  exact dedupe_dominates hr hk r' hr' hk'

/-- Record with unique_key X updated on 2024-01-01 (scenario input). -/
def recJan1 : Record :=
  ⟨some "X", some "2024-01-01", some "2024-01-01", none, none, none, none, none⟩

/-- Record with unique_key X updated on 2024-01-05 (scenario input). -/
def recJan5 : Record :=
  ⟨some "X", some "2024-01-02", some "2024-01-05", none, none, none, none, none⟩

theorem dedupe_keeps_latest_update_witness :
    ((dedupe [recJan1, recJan5]).countP fun r => r.unique_key == some "X") ≤ 1 ∧
    strLe (updatedOf recJan1) (updatedOf recJan5) = true ∧
    dedupe [recJan1, recJan5] = [recJan5] := by
  have h := dedupe_keeps_latest_update [recJan1, recJan5] "X"
  refine ⟨h.1, ?_, by decide⟩
  exact h.2 recJan5 (by decide) (by decide) recJan1 (by decide) (by decide)

/-- C9: every record whose unique_key is missing or empty (falsy) is dropped
by the deduplication in fetch_changes_since: all output records carry a truthy
unique_key and come from the input. -/
theorem dedupe_drops_falsy_keys (records : List Record) :
    ∀ r ∈ dedupe records, truthy r.unique_key = true ∧ r ∈ records := by
  intro r hr
  obtain ⟨hmem, k, hk, hke⟩ := dedupe_mem hr
  refine ⟨?_, hmem⟩
  simp [truthy, hk, hke]

/-- Record lacking a unique_key. -/
def recNoKey : Record := ⟨none, some "2024-01-03", none, none, none, none, none, none⟩

/-- Record with an empty (falsy) unique_key. -/
def recEmptyKey : Record := ⟨some "", some "2024-01-04", none, none, none, none, none, none⟩

/-- Record with a truthy unique_key. -/
def recKept : Record :=
  ⟨some "Y", some "2024-01-05", some "2024-01-06", none, none, none, none, none⟩

theorem dedupe_drops_falsy_keys_witness :
    (truthy recKept.unique_key = true ∧ recKept ∈ [recNoKey, recEmptyKey, recKept]) ∧
    dedupe [recNoKey, recEmptyKey, recKept] = [recKept] := by
  refine ⟨?_, by decide⟩
  exact dedupe_drops_falsy_keys [recNoKey, recEmptyKey, recKept] recKept (by decide)

/-! ### Quality validator -/

lemma ratio_lt_threshold {a t : Nat} (ht : t ≠ 0) :
    ((a : ℚ) / t < 0.05) ↔ 20 * a < t := by
  have ht' : (0 : ℚ) < t := by
    exact_mod_cast Nat.pos_of_ne_zero ht
  rw [div_lt_iff ht']
  constructor
  · intro h
    have h20 : (20 : ℚ) * a < t := by nlinarith
    exact_mod_cast h20
  · intro h
    have h20 : (20 : ℚ) * a < t := by exact_mod_cast h
    nlinarith

/-- C4: for a non-empty batch, the validity verdict holds iff the combined
unique_key/created_date null count and the duplicate count are each below
5 percent of the total (strictly), expressed over the naturals as
20 * count < total. -/
theorem is_valid_iff (rep : DataQualityReport) (h : rep.total_records ≠ 0) :
    rep.is_valid = true ↔
      (20 * (rep.null_unique_key + rep.null_created_date) < rep.total_records ∧
       20 * rep.duplicate_keys < rep.total_records) := by
  rw [DataQualityReport.is_valid, if_neg h, Bool.and_eq_true, decide_eq_true_eq,
    decide_eq_true_eq]
  have h1 := ratio_lt_threshold (a := rep.null_unique_key + rep.null_created_date)
    (t := rep.total_records) h
  have h2 := ratio_lt_threshold (a := rep.duplicate_keys) (t := rep.total_records) h
  push_cast at h1
  rw [h1, h2]

/-- The report of the scenario batch: 100 records, 6 with missing unique_key,
no other defects. -/
def report100 : DataQualityReport := ⟨100, 6, 0, 0, 0, 0, (none, none)⟩

theorem is_valid_iff_witness : report100.is_valid = false := by
  have h := is_valid_iff report100 (by decide)
  have hnot : ¬(20 * (report100.null_unique_key + report100.null_created_date)
      < report100.total_records ∧
      20 * report100.duplicate_keys < report100.total_records) := by decide
  cases hb : report100.is_valid
  · rfl
  · exact absurd (h.mp hb) hnot

/-- C8: validating the empty batch yields the all-zero report with a
(None, None) date range, and that report is valid. -/
theorem validate_records_empty :
    validate_records [] = ⟨0, 0, 0, 0, 0, 0, (none, none)⟩ ∧
    (validate_records []).is_valid = true :=
  ⟨rfl, rfl⟩

lemma length_filterMap_ite {α β : Type} (p : α → Bool) (f : α → β) :
    ∀ l : List α, (l.filterMap fun a => if p a then some (f a) else none).length
      = l.countP p := by
  intro l
  induction l with
  | nil => rfl
  | cons a l ih =>
    by_cases h : p a
    · simp [List.filterMap_cons, h, List.countP_cons, ih]
    · simp [List.filterMap_cons, h, List.countP_cons, ih]

lemma countP_not_add_countP {α : Type} (p : α → Bool) :
    ∀ l : List α, (l.countP fun a => !p a) + l.countP p = l.length := by
  intro l
  induction l with
  | nil => rfl
  | cons a l ih =>
    by_cases h : p a
    · simp [List.countP_cons, h]
      omega
    · simp [List.countP_cons, h]
      omega

/-- C7: for every non-empty batch, the report satisfies
null_unique_key + duplicate_keys ≤ total_records and
invalid_coordinates ≤ total_records. -/
theorem validate_records_count_bounds (records : List Record) (h : records ≠ []) :
    (validate_records records).null_unique_key + (validate_records records).duplicate_keys
      ≤ (validate_records records).total_records ∧
    (validate_records records).invalid_coordinates
      ≤ (validate_records records).total_records := by
  have hni : ¬(records.isEmpty = true) := by
    rw [List.isEmpty_iff]
    exact h
  rw [validate_records, if_neg hni]
  dsimp only
  constructor
  · have h1 : (uniqueKeys records).length = records.countP fun r => truthy r.unique_key :=
      length_filterMap_ite _ _ records
    have h2 := countP_not_add_countP (fun r => truthy r.unique_key) records
    have h3 : (uniqueKeys records).dedup.length ≤ (uniqueKeys records).length := by
      have := List.Sublist.length_le (List.dedup_sublist (uniqueKeys records))
      exact this
    omega
  · exact List.countP_le_length _

/-- A plain record with a truthy unique_key and created_date. -/
def recPlain : Record := ⟨some "Z", some "2024-03-01", none, none, none, none, none, none⟩

theorem validate_records_count_bounds_witness :
    (validate_records [recPlain]).null_unique_key
        + (validate_records [recPlain]).duplicate_keys
      ≤ (validate_records [recPlain]).total_records ∧
    (validate_records [recPlain]).invalid_coordinates
      ≤ (validate_records [recPlain]).total_records :=
  validate_records_count_bounds [recPlain] (by decide)

/-! ### Pagination engine -/

lemma emitPage_none : ∀ (page : List Record) (total : Nat),
    emitPage none page total = (page, total + page.length, false) := by
  intro page
  induction page with
  | nil => intro total; simp [emitPage]
  | cons r rest ih =>
    intro total
    simp only [emitPage, maxHit, Bool.false_eq_true, if_neg, ih rest.length, ih (total + 1)]
    simp [Prod.ext_iff]
    omega

lemma emitPage_some_zero : ∀ (page : List Record) (total : Nat),
    emitPage (some 0) page total = emitPage none page total := by
  intro page
  induction page with
  | nil => intro total; rfl
  | cons r rest ih =>
    intro total
    simp [emitPage, maxHit, ih]

lemma fetchPage_length (upstream : List Record) (P offset : Nat) :
    (fetchPage upstream P offset).length = min P (upstream.length - offset) := by
  simp [fetchPage, List.length_take, List.length_drop]

lemma range_offset_shift (offset P m : Nat) :
    offset :: (List.range m).map (fun i => offset + P + i * P)
      = (List.range (m + 1)).map fun i => offset + i * P := by
  rw [List.range_succ_eq_map, List.map_cons, List.map_map]
  simp only [Nat.zero_mul, Nat.add_zero]
  congr 1
  apply List.map_congr_left
  intro i _
  simp only [Function.comp, Nat.succ_eq_add_one]
  ring

/-- Full characterization of the pagination loop without a record limit: it
emits exactly the remaining upstream records and requests the offsets
offset, offset + P, offset + 2P, ... — one request per full page plus one
final empty-or-short-page request. -/
lemma fetch_all_none_eq (upstream : List Record) (P : Nat) (hP : 0 < P) :
    ∀ (n offset total : Nat), upstream.length - offset ≤ n →
      fetch_all upstream P none offset total =
        (upstream.drop offset,
         (List.range ((upstream.length - offset) / P + 1)).map fun i => offset + i * P) := by
  intro n
  induction n with
  | zero =>
    intro offset total h
    have hoff : upstream.length ≤ offset := by omega
    have hdrop : upstream.drop offset = [] := List.drop_eq_nil_of_le hoff
    have hpage : fetchPage upstream P offset = [] := by simp [fetchPage, hdrop]
    rw [fetch_all, dif_pos hpage, hdrop]
    have hsub : upstream.length - offset = 0 := by omega
    rw [hsub]
    simp [List.range_succ]
  | succ n ih =>
    intro offset total h
    by_cases hpage : fetchPage upstream P offset = []
    · have hoff : upstream.length ≤ offset := by
        by_contra hc
        push_neg at hc
        have hlen := fetchPage_length upstream P offset
        rw [hpage] at hlen
        simp at hlen
        omega
      have hdrop : upstream.drop offset = [] := List.drop_eq_nil_of_le hoff
      rw [fetch_all, dif_pos hpage, hdrop]
      have hsub : upstream.length - offset = 0 := by omega
      rw [hsub]
      simp [List.range_succ]
    · have hlen := fetchPage_length upstream P offset
      by_cases hshort : (fetchPage upstream P offset).length < P
      · have hlt : upstream.length - offset < P := by omega
        have hdiv : (upstream.length - offset) / P = 0 := Nat.div_eq_of_lt hlt
        have hall : fetchPage upstream P offset = upstream.drop offset := by
          apply List.take_all_of_le
          rw [List.length_drop]
          omega
        rw [fetch_all, dif_neg hpage]
        simp only [emitPage_none, hshort, decide_True, Bool.or_true, if_true, hdiv]
        rw [hall]
        simp [List.range_succ]
      · have hfull : (fetchPage upstream P offset).length = P := by omega
        have hPle : P ≤ upstream.length - offset := by omega
        have hmeas : upstream.length - (offset + P) ≤ n := by omega
        have hc1 : fetchPage upstream P offset ++ upstream.drop (offset + P)
            = upstream.drop offset := by
          rw [fetchPage, (List.drop_drop P offset upstream).symm]
          exact List.take_append_drop P (upstream.drop offset)
        have hdiv2 : (upstream.length - offset) / P
            = (upstream.length - (offset + P)) / P + 1 := by
          rw [Nat.div_eq_sub_div hP hPle, Nat.sub_sub]
        rw [fetch_all, dif_neg hpage]
        simp only [emitPage_none, hfull, lt_self_iff_false, decide_False, Bool.false_or,
          Bool.false_eq_true, if_false]
        rw [ih (offset + P) (total + P) hmeas]
        simp only [Prod.mk.injEq]
        constructor
        · exact hc1
        · rw [hdiv2]
          exact range_offset_shift offset P _

/-- First upstream sample record. -/
def recP1 : Record := ⟨some "p1", some "2024-05-01", none, none, none, none, none, none⟩

/-- Second upstream sample record. -/
def recP2 : Record := ⟨some "p2", some "2024-05-02", none, none, none, none, none, none⟩

/-- Third upstream sample record. -/
def recP3 : Record := ⟨some "p3", some "2024-05-03", none, none, none, none, none, none⟩

/-- C3 counterexample: with an upstream of M = 2 records and page size P = 2
(no max_records), the loop issues 2 page requests — the full page at offset 0
and the empty probe at offset 2 — not ceil(M/P) = 1 as claimed. -/
theorem fetch_all_requests_ne_ceil :
    ((fetch_all [recP1, recP2] 2 none 0 0).2).length ≠ (2 + 2 - 1) / 2 := by
  rw [fetch_all_none_eq [recP1, recP2] 2 (by norm_num) 2 0 0 (by simp)]
  simp

/-- C3 (amended): with no max_records and page size P > 0, fetch_all emits
exactly the M upstream records and issues exactly M / P + 1 page requests at
the pairwise-distinct offsets 0, P, 2P, ... (so an offset is never requested
twice); this equals ceil(M/P) when P does not divide M, and is one more than
ceil(M/P) when P divides M (including the single empty-page request at M = 0). -/
theorem fetch_all_pagination (upstream : List Record) (P : Nat) (hP : 0 < P) :
    (fetch_all upstream P none 0 0).1 = upstream ∧
    (fetch_all upstream P none 0 0).2
      = (List.range (upstream.length / P + 1)).map (fun i => i * P) ∧
    (fetch_all upstream P none 0 0).2.Nodup := by
  have h := fetch_all_none_eq upstream P hP upstream.length 0 0 (by omega)
  rw [h]
  have hmap : (List.range ((upstream.length - 0) / P + 1)).map (fun i => 0 + i * P)
      = (List.range (upstream.length / P + 1)).map fun i => i * P := by
    simp
  refine ⟨by simp, hmap, ?_⟩
  rw [hmap]
  apply List.Nodup.map ?_ (List.nodup_range _)
  intro a b hab
  simp only at hab
  exact Nat.eq_of_mul_eq_mul_right hP hab

theorem fetch_all_pagination_witness :
    (fetch_all [recP1, recP2, recP3] 2 none 0 0).1 = [recP1, recP2, recP3] ∧
    (fetch_all [recP1, recP2, recP3] 2 none 0 0).2 = [0, 2] := by
  have h := fetch_all_pagination [recP1, recP2, recP3] 2 (by norm_num)
  refine ⟨h.1, ?_⟩
  rw [h.2.1]
  decide

lemma fetch_all_zero_limit (upstream : List Record) (P : Nat) :
    ∀ (n offset total : Nat), upstream.length - offset ≤ n →
      fetch_all upstream P (some 0) offset total = fetch_all upstream P none offset total := by
  intro n
  induction n with
  | zero =>
    intro offset total h
    have hoff : upstream.length ≤ offset := by omega
    have hpage : fetchPage upstream P offset = [] := by
      simp [fetchPage, List.drop_eq_nil_of_le hoff]
    rw [fetch_all, dif_pos hpage, fetch_all, dif_pos hpage]
  | succ n ih =>
    intro offset total h
    by_cases hpage : fetchPage upstream P offset = []
    · rw [fetch_all, dif_pos hpage, fetch_all, dif_pos hpage]
    · have hlen1 : 0 < (fetchPage upstream P offset).length := List.length_pos.mpr hpage
      have hmeas : upstream.length - (offset + (fetchPage upstream P offset).length) ≤ n := by
        have := fetchPage_length upstream P offset
        omega
      rw [fetch_all, dif_neg hpage, fetch_all, dif_neg hpage]
      simp only [emitPage_some_zero, emitPage_none]
      by_cases hshort : (fetchPage upstream P offset).length < P
      · simp [hshort]
      · simp only [hshort, decide_False, Bool.or_false, Bool.false_or,
          Bool.false_eq_true, if_false]
        rw [ih (offset + (fetchPage upstream P offset).length)
          (total + (fetchPage upstream P offset).length) hmeas]

/-- C10: calling fetch_all with max_records = 0 behaves exactly as if no
limit were given — the guard `if max_records and ...` never fires because 0 is
falsy — so with a positive page size every upstream record is emitted rather
than zero records. -/
theorem fetch_all_max_records_zero (upstream : List Record) (P : Nat) :
    (∀ offset total,
      fetch_all upstream P (some 0) offset total = fetch_all upstream P none offset total) ∧
    (0 < P → (fetch_all upstream P (some 0) 0 0).1 = upstream) := by
  constructor
  · intro offset total
    exact fetch_all_zero_limit upstream P upstream.length offset total (by omega)
  · intro hP
    rw [fetch_all_zero_limit upstream P upstream.length 0 0 (by omega)]
    rw [fetch_all_none_eq upstream P hP upstream.length 0 0 (by omega)]
    simp

theorem fetch_all_max_records_zero_witness :
    fetch_all [recP1, recP2] 2 (some 0) 0 0 = fetch_all [recP1, recP2] 2 none 0 0 ∧
    (fetch_all [recP1, recP2] 2 (some 0) 0 0).1 = [recP1, recP2] := by
  have h := fetch_all_max_records_zero [recP1, recP2] 2
  exact ⟨h.1 0 0, h.2 (by norm_num)⟩

/-! ### Watermark state manager -/

lemma createdDates_mem {records : List Record} {x : String} (hx : x ∈ createdDates records) :
    ∃ r ∈ records, r.created_date = some x ∧ truthy r.created_date = true := by
  simp only [createdDates, List.mem_filterMap] at hx
  obtain ⟨r, hr, hfr⟩ := hx
  by_cases ht : truthy r.created_date = true
  · rw [if_pos ht] at hfr
    refine ⟨r, hr, ?_, ht⟩
    cases hc : r.created_date with
    | none => rw [hc] at ht; simp [truthy] at ht
    | some s =>
      rw [hc] at hfr
      simp at hfr
      rw [hfr]
  · rw [Bool.not_eq_true] at ht
    rw [if_neg (by simp [ht])] at hfr
    exact absurd hfr (by simp)

lemma validate_max_ge {records : List Record} {w d : String}
    (hall : ∀ r ∈ records, truthy r.created_date = true →
      strLe w (r.created_date.getD "") = true)
    (hd : (validate_records records).date_range.2 = some d) :
    strLe w d = true := by
  by_cases hne : records.isEmpty = true
  · rw [validate_records, if_pos hne] at hd
    simp at hd
  · rw [validate_records, if_neg hne] at hd
    dsimp only at hd
    cases hds : createdDates records with
    | nil => rw [hds] at hd; simp at hd
    | cons d0 ds =>
      rw [hds] at hd
      simp only [Option.some.injEq] at hd
      have hd0 : strLe w d0 = true := by
        have hmem : d0 ∈ createdDates records := by rw [hds]; simp
        obtain ⟨r, hr, hrc, hrt⟩ := createdDates_mem hmem
        have := hall r hr hrt
        rwa [hrc] at this
      have := strLe_foldl_maxS w ds d0 hd0
      rwa [hd] at this

/-- The record of the C1 counterexample: created before the stored watermark
but updated after it, so the SCD2 changed-records query legitimately returns
it. -/
def cxRec : Record :=
  ⟨some "1", some "2024-01-01", some "2024-01-11", none, none, none, none, none⟩

/-- Upstream behaviour for the C1 counterexample: the changed-records query
returns exactly the old-but-updated record. -/
def cxOracle : Strategy → List Record := fun s =>
  match s with
  | Strategy.changedSince _ => [cxRec]
  | _ => []

/-- C1 counterexample: starting from persisted watermark 2024-01-10, an SCD2
load whose only record was created 2024-01-01 but updated 2024-01-11 (a
legitimate answer to the changed-records query) overwrites the watermark with
2024-01-01, which is strictly smaller — the persisted timestamp regresses. -/
theorem watermark_can_regress :
    readState (StateFile.present (some "2024-01-10")) = some "2024-01-10" ∧
    (load_incremental cxOracle true 7 (StateFile.present (some "2024-01-10"))).1
      = StateFile.present (some "2024-01-01") ∧
    strLt "2024-01-01" "2024-01-10" = true ∧
    (∀ r ∈ cxOracle (chooseStrategy (some "2024-01-10") true 7),
      r.created_date = some "2024-01-01" ∧
      r.resolution_action_updated_date = some "2024-01-11" ∧
      strLt "2024-01-10" "2024-01-11" = true) := by
  decide

/-- C1 (amended): the persisted watermark is overwritten only with the
report's max created_date of a load that returned records and whose report
has a truthy date-range maximum, and is left unchanged otherwise; it is
guaranteed not to regress only under the additional hypothesis that every
record the chosen query returns has (when truthy) a created_date at least the
stored watermark — which holds for the created_date-only incremental query
but can fail for the SCD2 changed-records query. -/
theorem watermark_monotone_conditional (oracle : Strategy → List Record) (scd2 : Bool)
    (days : Nat) (w : String) (hw : w ≠ "")
    (hdom : ∀ r ∈ oracle (chooseStrategy (some w) scd2 days),
      truthy r.created_date = true → strLe w (r.created_date.getD "") = true) :
    ∃ w', (load_incremental oracle scd2 days (StateFile.present (some w))).1
        = StateFile.present (some w') ∧ strLe w w' = true ∧
      (w' = w ∨
        ((load_incremental oracle scd2 days (StateFile.present (some w))).2.2.date_range.2
            = some w' ∧
         (load_incremental oracle scd2 days (StateFile.present (some w))).2.1 ≠ [])) := by
  cases scd2 with
  | false =>
    have hstrat : chooseStrategy (some w) false days = Strategy.since w := by
      simp [chooseStrategy, hw]
    rw [hstrat] at hdom
    simp only [load_incremental, readState, hstrat]
    by_cases hc : (!(oracle (Strategy.since w)).isEmpty
        && truthy (validate_records (oracle (Strategy.since w))).date_range.2) = true
    · rw [if_pos hc]
      rw [Bool.and_eq_true] at hc
      cases hdr : (validate_records (oracle (Strategy.since w))).date_range.2 with
      | none => rw [hdr] at hc; simp [truthy] at hc
      | some d =>
        refine ⟨d, by simp [hdr], ?_, Or.inr ⟨by simp [hdr], ?_⟩⟩
        · exact validate_max_ge hdom hdr
        · intro he
          dsimp only at he
          rw [he] at hc
          simp at hc
    · rw [if_neg hc]
      exact ⟨w, rfl, strLe_refl w, Or.inl rfl⟩
  | true =>
    have hstrat : chooseStrategy (some w) true days = Strategy.changedSince w := by
      simp [chooseStrategy, hw]
    rw [hstrat] at hdom
    have hdom' : ∀ r ∈ dedupe (oracle (Strategy.changedSince w)),
        truthy r.created_date = true → strLe w (r.created_date.getD "") = true :=
      fun r hr => hdom r (dedupe_mem hr).1
    simp only [load_incremental, readState, hstrat]
    by_cases hc : (!(dedupe (oracle (Strategy.changedSince w))).isEmpty
        && truthy (validate_records
          (dedupe (oracle (Strategy.changedSince w)))).date_range.2) = true
    · rw [if_pos hc]
      rw [Bool.and_eq_true] at hc
      cases hdr : (validate_records
          (dedupe (oracle (Strategy.changedSince w)))).date_range.2 with
      | none => rw [hdr] at hc; simp [truthy] at hc
      | some d =>
        refine ⟨d, by simp [hdr], ?_, Or.inr ⟨by simp [hdr], ?_⟩⟩
        · exact validate_max_ge hdom' hdr
        · intro he
          dsimp only at he
          rw [he] at hc
          simp at hc
    · rw [if_neg hc]
      exact ⟨w, rfl, strLe_refl w, Or.inl rfl⟩

/-- Record created after the witness watermark. -/
def recAfter : Record :=
  ⟨some "7", some "2024-02-02", some "2024-02-03", none, none, none, none, none⟩

/-- Upstream behaviour for the C1 witness: every query returns one record
created after the watermark. -/
def wOracle : Strategy → List Record := fun _ => [recAfter]

theorem watermark_monotone_conditional_witness :
    ∃ w', (load_incremental wOracle true 7 (StateFile.present (some "2024-01-01"))).1
        = StateFile.present (some w') ∧ strLe "2024-01-01" w' = true ∧
      (w' = "2024-01-01" ∨
        ((load_incremental wOracle true 7
            (StateFile.present (some "2024-01-01"))).2.2.date_range.2 = some w' ∧
         (load_incremental wOracle true 7
            (StateFile.present (some "2024-01-01"))).2.1 ≠ [])) :=
  watermark_monotone_conditional wOracle true 7 "2024-01-01" (by decide) (by decide)

/-- C5: an absent or corrupt state file is fully recovered from locally:
_read_state returns no watermark instead of an error, and load_incremental
then selects the initial-lookback strategy, so the records it processes are
those of the recent-days query. -/
theorem state_error_recovery (sf : StateFile)
    (h : sf = StateFile.absent ∨ sf = StateFile.corrupt) (scd2 : Bool) (days : Nat) :
    readState sf = none ∧
    chooseStrategy (readState sf) scd2 days = Strategy.recent days ∧
    ∀ oracle : Strategy → List Record,
      (load_incremental oracle scd2 days sf).2.1 = oracle (Strategy.recent days) := by
  have hr : readState sf = none := by
    rcases h with h | h <;> simp [h, readState]
  refine ⟨hr, by simp [chooseStrategy, hr], ?_⟩
  intro oracle
  simp only [load_incremental, hr, chooseStrategy]
  split <;> rfl

theorem state_error_recovery_witness :
    readState StateFile.absent = none ∧
    chooseStrategy (readState StateFile.absent) true 7 = Strategy.recent 7 ∧
    ∀ oracle : Strategy → List Record,
      (load_incremental oracle true 7 StateFile.absent).2.1 = oracle (Strategy.recent 7) :=
  state_error_recovery StateFile.absent (Or.inl rfl) true 7

end NYC311
